import Mathlib

/-!
Verification of the buffered-stream I/O layer, the primitive-list views and
the message-reader facade of the capnproto-rust core (`src/io.rs`,
`src/primitive_list.rs`, `src/message.rs`), shallowly embedded in Lean.

Bytes are modelled as natural numbers, byte buffers as `List Nat`, and the
wrapped byte source as the list of bytes it has still to deliver.  The
source follows the `std::old_io::Reader` contract that `src/io.rs` is
written against: a read delivers up to the requested number of bytes and
reports `endOfFile` as an error once the source is exhausted.  Loops whose
termination depends on the wrapped reader carry an explicit fuel bound;
`none` means the bound was exhausted (the Rust loop would still be
running), so every `some` result is a faithful terminating run of the
source code.
-/

namespace Capnp

/-- Bytes are modelled as natural numbers. -/
abbrev Byte := Nat

/-- In-place slice write: the effect of `copy_memory` (or of a reader
filling a sub-slice) on `buf[pos .. pos + bs.length]`. -/
def writeAt (buf : List Byte) (pos : Nat) (bs : List Byte) : List Byte :=
  buf.take pos ++ bs ++ buf.drop (pos + bs.length)

/-- Errors reported by a byte source, after `std::old_io`: reaching the end
of the data is reported as an error by a `Reader`. -/
inductive IoError where
  | endOfFile
  deriving DecidableEq

/-- The wrapped byte source, specialised to a list of remaining bytes: a
read with a destination of length `len` greedily delivers
`min len remaining` bytes, and reports `endOfFile` when asked for bytes
after exhaustion, per the `std::old_io::Reader` contract that
`src/io.rs` relies on. -/
def listRead (rem : List Byte) (len : Nat) : Except IoError (List Byte × List Byte) :=
  if rem = [] ∧ 0 < len then .error .endOfFile
  else .ok (rem.take len, rem.drop len)

/-- Loop body of `read_at_least` (src/io.rs lines 29-35): read into
`buf[pos ..]`, add the count to `pos`, repeat while `pos < minBytes`,
propagating source errors via `try!`.  Generic in the wrapped reader `rd`,
as the Rust function is generic in `R : Reader`.  `fuel` bounds the number
of iterations; `none` means the bound was exhausted. -/
def read_at_least_loop {σ ε : Type} (rd : σ → Nat → Except ε (List Byte × σ)) :
    Nat → σ → List Byte → Nat → Nat → Option (Except ε (Nat × List Byte × σ))
  | 0, _, _, _, _ => none
  | fuel + 1, s, buf, pos, minBytes =>
    if pos < minBytes then
      match rd s (buf.length - pos) with
      | .error e => some (.error e)
      | .ok (bs, s') =>
        read_at_least_loop rd fuel s' (writeAt buf pos bs) (pos + bs.length) minBytes
    else
      some (.ok (pos, buf, s))

/-- `read_at_least` (src/io.rs lines 26-37): repeatedly read into the
unfilled tail of `buf`, starting at position 0, until at least `minBytes`
bytes have accumulated; return the total count, the filled buffer and the
reader's final state. -/
def read_at_least {σ ε : Type} (rd : σ → Nat → Except ε (List Byte × σ))
    (fuel : Nat) (s : σ) (buf : List Byte) (minBytes : Nat) :
    Option (Except ε (Nat × List Byte × σ)) :=
  read_at_least_loop rd fuel s buf 0 minBytes

/-! Basic facts about `writeAt` and `listRead`. -/

theorem writeAt_zero (buf bs : List Byte) :
    writeAt buf 0 bs = bs ++ buf.drop bs.length := by
  simp [writeAt]

theorem writeAt_length {buf bs : List Byte} {pos : Nat}
    (h1 : pos ≤ buf.length) (h2 : pos + bs.length ≤ buf.length) :
    (writeAt buf pos bs).length = buf.length := by
  simp [writeAt]
  omega

theorem listRead_ok {rem rem' bs : List Byte} {len : Nat}
    (h : listRead rem len = .ok (bs, rem')) :
    bs = rem.take len ∧ rem' = rem.drop len := by
  unfold listRead at h
  split at h
  · cases h
  · exact ⟨(Prod.mk.injEq _ _ _ _ ▸ Except.ok.inj h).1.symm,
           (Prod.mk.injEq _ _ _ _ ▸ Except.ok.inj h).2.symm⟩

/-! Characterisation of `read_at_least` against the greedy list source.
With `0 < minBytes ≤ buf.length` the loop settles within two iterations:
the first greedy read either delivers at least `minBytes` bytes at once or
drains the source, in which case the second read reports `endOfFile`. -/

theorem read_at_least_list_err {buf rem : List Byte} {minB : Nat} (f : Nat)
    (h0 : 0 < minB) (hb : minB ≤ buf.length) (hr : rem.length < minB) :
    read_at_least listRead (f + 2) rem buf minB = some (.error .endOfFile) := by
  unfold read_at_least read_at_least_loop
  rw [if_pos h0]
  rcases eq_or_ne rem [] with hnil | hne
  · subst hnil
    have : listRead [] (buf.length - 0) = .error .endOfFile := by
      unfold listRead
      rw [if_pos ⟨rfl, by omega⟩]
    rw [this]
  · have hread : listRead rem (buf.length - 0) =
        .ok (rem.take (buf.length - 0), rem.drop (buf.length - 0)) := by
      unfold listRead
      rw [if_neg (by simp [hne])]
    rw [hread]
    have htake : rem.take (buf.length - 0) = rem := by
      apply List.take_of_length_le
      omega
    have hdrop : rem.drop (buf.length - 0) = [] := by
      apply List.drop_eq_nil_of_le
      omega
    rw [htake, hdrop]
    unfold read_at_least_loop
    rw [if_pos (by simpa using hr)]
    have hlen : (writeAt buf 0 rem).length = buf.length := by
      rw [writeAt_zero]
      simp
      omega
    have hpos : 0 < (writeAt buf 0 rem).length - (0 + rem.length) := by
      rw [hlen]; omega
    have : listRead [] ((writeAt buf 0 rem).length - (0 + rem.length)) =
        .error .endOfFile := by
      unfold listRead
      rw [if_pos ⟨rfl, hpos⟩]
    rw [this]

theorem read_at_least_list_ok {buf rem : List Byte} {minB : Nat} (f : Nat)
    (h0 : 0 < minB) (hb : minB ≤ buf.length) (hr : minB ≤ rem.length) :
    read_at_least listRead (f + 2) rem buf minB =
      some (.ok (min buf.length rem.length,
                 rem.take buf.length ++ buf.drop (min buf.length rem.length),
                 rem.drop buf.length)) := by
  unfold read_at_least read_at_least_loop
  rw [if_pos h0]
  have hne : rem ≠ [] := by
    intro h; rw [h] at hr; simp at hr; omega
  have hread : listRead rem (buf.length - 0) =
      .ok (rem.take (buf.length - 0), rem.drop (buf.length - 0)) := by
    unfold listRead
    rw [if_neg (by simp [hne])]
  rw [hread]
  unfold read_at_least_loop
  have hlen : (rem.take (buf.length - 0)).length = min buf.length rem.length := by
    simp
  rw [if_neg (by { rw [hlen]; omega })]
  rw [writeAt_zero, hlen]
  simp only [Nat.sub_zero, Nat.zero_add]

theorem read_at_least_list_zero (f : Nat) (rem buf : List Byte) :
    read_at_least listRead (f + 1) rem buf 0 = some (.ok (0, buf, rem)) := by
  unfold read_at_least read_at_least_loop
  simp

/-- Inversion: a successful `read_at_least` over the list source, with a
positive in-bounds minimum, forces the greedy one-refill outcome. -/
theorem read_at_least_list_inv {buf rem buf' s' : List Byte} {minB n : Nat} {f : Nat}
    (h0 : 0 < minB) (hb : minB ≤ buf.length)
    (h : read_at_least listRead (f + 2) rem buf minB = some (.ok (n, buf', s'))) :
    minB ≤ rem.length ∧ n = min buf.length rem.length ∧
      buf' = rem.take buf.length ++ buf.drop n ∧ s' = rem.drop buf.length := by
  rcases Nat.lt_or_ge rem.length minB with hlt | hge
  · rw [read_at_least_list_err f h0 hb hlt] at h
    cases h
  · rw [read_at_least_list_ok f h0 hb hge] at h
    have h' := Option.some.inj h
    have h'' := Except.ok.inj h'
    refine ⟨hge, ?_, ?_, ?_⟩
    · exact (Prod.mk.injEq _ _ _ _ ▸ h'').1.symm
    · have h2 := (Prod.mk.injEq _ _ _ _ ▸ h'').2
      have h3 := (Prod.mk.injEq _ _ _ _ ▸ h2).1
      have h1 := (Prod.mk.injEq _ _ _ _ ▸ h'').1
      rw [← h3, ← h1]
    · exact (Prod.mk.injEq _ _ _ _ ▸ (Prod.mk.injEq _ _ _ _ ▸ h'').2).2.symm

/-! Further list helpers. -/

theorem take_drop_append_drop (l : List Byte) {m n : Nat} (h : m ≤ n) :
    (l.take n).drop m ++ l.drop n = l.drop m := by
  rw [List.drop_take]
  have h2 := List.drop_take_append_drop l m (n - m)
  rwa [Nat.add_sub_cancel' h] at h2

theorem drop_min_length (l : List Byte) (k : Nat) :
    l.drop (min k l.length) = l.drop k := by
  rcases Nat.le_total k l.length with hk | hk
  · rw [Nat.min_eq_left hk]
  · rw [Nat.min_eq_right hk, List.drop_eq_nil_of_le hk, List.drop_eq_nil_of_le le_rfl]

/-- With an empty internal buffer and a positive minimum, the
`read_at_least` loop makes no progress on any source: every greedy read of
zero bytes returns zero bytes, so the loop never terminates (we observe
fuel exhaustion at every bound). -/
theorem read_at_least_empty_buf (rem : List Byte) :
    ∀ f, read_at_least listRead f rem [] 1 = none := by
  intro f
  unfold read_at_least
  induction f generalizing rem with
  | zero => rfl
  | succ f ih =>
    unfold read_at_least_loop
    rw [if_pos (by omega)]
    have hr : listRead rem (([] : List Byte).length - 0) = .ok ([], rem) := by
      unfold listRead
      rw [if_neg (by simp)]
      simp
    rw [hr]
    simpa [writeAt] using ih rem

/-! The streaming buffered input wrapper (src/io.rs lines 44-132).  The
state carries the wrapped source's remaining bytes, the internal buffer's
contents, the read cursor `pos` and the valid-data boundary `cap`. -/

structure BufferedInputStreamWrapper where
  inner : List Byte
  buf : List Byte
  pos : Nat
  cap : Nat
  deriving DecidableEq

/-- Constructor (src/io.rs lines 52-63): an 8192-byte internal buffer whose
initial contents are unspecified (the Rust code exposes uninitialised
memory; zeros here), with `pos = cap = 0`. -/
def BufferedInputStreamWrapper.new (inner : List Byte) : BufferedInputStreamWrapper :=
  { inner := inner, buf := List.replicate 8192 0, pos := 0, cap := 0 }

/-- The buffered-stream invariant of the spec: `0 ≤ pos ≤ cap ≤ capacity`
(`0 ≤ pos` is inherent to `Nat`). -/
def BufferedInputStreamWrapper.inv (s : BufferedInputStreamWrapper) : Prop :=
  s.pos ≤ s.cap ∧ s.cap ≤ s.buf.length

instance (s : BufferedInputStreamWrapper) : Decidable s.inv := by
  unfold BufferedInputStreamWrapper.inv
  exact instDecidableAnd

/-- The logical byte stream still to be delivered: the unread window
`buf[pos .. cap]` of the internal buffer followed by the wrapped source's
remaining bytes. -/
def logicalStream (s : BufferedInputStreamWrapper) : List Byte :=
  (s.buf.drop s.pos).take (s.cap - s.pos) ++ s.inner

/-- `Reader::read` for `BufferedInputStreamWrapper` (src/io.rs lines
98-132).  `dst` is the caller's destination slice together with its prior
contents; on success the filled destination and the successor state are
returned.  The three branches are the source's: serve wholly from the
buffer; copy the available window then refill once; or copy the window and
forward a large read directly to the source (after clearing `pos`/`cap`). -/
def BufferedInputStreamWrapper.read (fuel : Nat) (s : BufferedInputStreamWrapper)
    (dst : List Byte) : Option (Except IoError (List Byte × BufferedInputStreamWrapper)) :=
  let numBytes := dst.length
  if numBytes ≤ s.cap - s.pos then
    some (.ok (writeAt dst 0 ((s.buf.drop s.pos).take numBytes),
               { s with pos := s.pos + numBytes }))
  else
    let fromFirst := s.cap - s.pos
    let dstA := writeAt dst 0 ((s.buf.drop s.pos).take fromFirst)
    let numBytes2 := numBytes - fromFirst
    if numBytes2 ≤ s.buf.length then
      match read_at_least listRead fuel s.inner s.buf numBytes2 with
      | none => none
      | some (.error e) => some (.error e)
      | some (.ok (n, buf2, inner2)) =>
        some (.ok (writeAt dstA fromFirst (buf2.take numBytes2),
                   { inner := inner2, buf := buf2, pos := numBytes2, cap := n }))
    else
      match read_at_least listRead fuel s.inner (dstA.drop fromFirst) numBytes2 with
      | none => none
      | some (.error e) => some (.error e)
      | some (.ok (_, dst1, inner2)) =>
        some (.ok (dstA.take fromFirst ++ dst1,
                   { inner := inner2, buf := s.buf, pos := 0, cap := 0 }))

/-- Outcome of `skip`: success, a propagated source error, or the
`panic!("TODO")` of the unimplemented large-skip branch. -/
inductive SkipOutcome where
  | ok (s : BufferedInputStreamWrapper)
  | ioError (e : IoError)
  | unimplementedTodo
  deriving DecidableEq

/-- `BufferedInputStream::skip` for the wrapper (src/io.rs lines 68-85):
consume from the buffer when sufficient; otherwise refill once and discard;
a skip whose excess exceeds the buffer's capacity hits `panic!("TODO")`. -/
def BufferedInputStreamWrapper.skip (fuel : Nat) (s : BufferedInputStreamWrapper)
    (bytes : Nat) : Option SkipOutcome :=
  let available := s.cap - s.pos
  if bytes ≤ available then
    some (.ok { s with pos := s.pos + bytes })
  else
    let bytes2 := bytes - available
    if bytes2 ≤ s.buf.length then
      match read_at_least listRead fuel s.inner s.buf bytes2 with
      | none => none
      | some (.error e) => some (.ioError e)
      | some (.ok (n, buf2, inner2)) =>
        some (.ok { inner := inner2, buf := buf2, pos := bytes2, cap := n })
    else
      some .unimplementedTodo

/-- `BufferedInputStream::get_read_buffer` for the wrapper (src/io.rs lines
87-95): when the window is empty, refill with at least one byte; return
the window `buf[pos .. cap]` together with the successor state. -/
def BufferedInputStreamWrapper.get_read_buffer (fuel : Nat)
    (s : BufferedInputStreamWrapper) :
    Option (Except IoError (List Byte × BufferedInputStreamWrapper)) :=
  if s.cap - s.pos = 0 then
    match read_at_least listRead fuel s.inner s.buf 1 with
    | none => none
    | some (.error e) => some (.error e)
    | some (.ok (n, buf2, inner2)) =>
      some (.ok ((buf2.drop 0).take (n - 0),
                 { inner := inner2, buf := buf2, pos := 0, cap := n }))
  else
    some (.ok ((s.buf.drop s.pos).take (s.cap - s.pos), s))

/-- Correctness of `read` on a state satisfying the invariant: a successful
read fills the whole destination with the next `dst.length` bytes of the
logical stream, advances the logical stream by exactly that amount, and
preserves the invariant. -/
theorem read_ok_spec {s s' : BufferedInputStreamWrapper} {dst dst' : List Byte} {f : Nat}
    (hinv : s.inv)
    (h : BufferedInputStreamWrapper.read (f + 2) s dst = some (.ok (dst', s'))) :
    dst.length ≤ (logicalStream s).length ∧
      dst' = (logicalStream s).take dst.length ∧
      logicalStream s' = (logicalStream s).drop dst.length ∧ s'.inv := by
  obtain ⟨hpc, hcl⟩ := hinv
  have hwlen : ((s.buf.drop s.pos).take (s.cap - s.pos)).length = s.cap - s.pos := by
    simp
    omega
  simp only [BufferedInputStreamWrapper.read] at h
  by_cases hc1 : dst.length ≤ s.cap - s.pos
  · rw [if_pos hc1] at h
    simp only [Option.some.injEq, Except.ok.injEq, Prod.mk.injEq] at h
    obtain ⟨hd, hs⟩ := h
    subst hd hs
    have hXlen : ((s.buf.drop s.pos).take dst.length).length = dst.length := by
      simp
      omega
    refine ⟨?_, ?_, ?_, ?_⟩
    · simp only [logicalStream, List.length_append, hwlen]
      omega
    · rw [writeAt_zero, hXlen, List.drop_length, List.append_nil, logicalStream,
          List.take_append_of_le_length (by rw [hwlen]; exact hc1), List.take_take,
          Nat.min_eq_left hc1]
    · simp only [logicalStream]
      rw [List.drop_append_of_le_length (by rw [hwlen]; exact hc1), List.drop_take,
          List.drop_drop, ← Nat.sub_sub]
    · refine ⟨?_, hcl⟩
      show s.pos + dst.length ≤ s.cap
      omega
  · rw [if_neg hc1] at h
    by_cases hc2 : dst.length - (s.cap - s.pos) ≤ s.buf.length
    · rw [if_pos hc2] at h
      split at h
      · exact Option.noConfusion h
      · simp at h
      · rename_i n buf2 inner2 heq
        simp only [Option.some.injEq, Except.ok.injEq, Prod.mk.injEq] at h
        obtain ⟨hd, hs⟩ := h
        subst hd hs
        obtain ⟨hge, hn, hbuf2, hinner2⟩ :=
          read_at_least_list_inv (by omega) hc2 heq
        subst hn hbuf2 hinner2
        have hnb2 : dst.length - (s.cap - s.pos) ≤ min s.buf.length s.inner.length := by
          omega
        have hA : writeAt dst 0 ((s.buf.drop s.pos).take (s.cap - s.pos)) =
            (s.buf.drop s.pos).take (s.cap - s.pos) ++ dst.drop (s.cap - s.pos) := by
          rw [writeAt_zero, hwlen]
        have hAlen : (writeAt dst 0 ((s.buf.drop s.pos).take (s.cap - s.pos))).length
            = dst.length := by
          rw [hA, List.length_append, hwlen, List.length_drop]
          omega
        have htk : ((s.inner.take s.buf.length ++
            s.buf.drop (min s.buf.length s.inner.length)).take
              (dst.length - (s.cap - s.pos))) =
            s.inner.take (dst.length - (s.cap - s.pos)) := by
          rw [List.take_append_of_le_length (by simp; omega), List.take_take,
              Nat.min_eq_left hc2]
        refine ⟨?_, ?_, ?_, ?_⟩
        · simp only [logicalStream, List.length_append, hwlen]
          omega
        · rw [writeAt, htk]
          have h1 : (s.inner.take (dst.length - (s.cap - s.pos))).length
              = dst.length - (s.cap - s.pos) := by
            simp
            omega
          rw [h1]
          have h2 : (writeAt dst 0 ((s.buf.drop s.pos).take (s.cap - s.pos))).drop
              (s.cap - s.pos + (dst.length - (s.cap - s.pos))) = [] := by
            apply List.drop_eq_nil_of_le
            rw [hAlen]
            omega
          rw [h2, List.append_nil]
          have h3 : (writeAt dst 0 ((s.buf.drop s.pos).take (s.cap - s.pos))).take
              (s.cap - s.pos) = (s.buf.drop s.pos).take (s.cap - s.pos) := by
            rw [hA, List.take_append_of_le_length (by rw [hwlen]),
                List.take_of_length_le (by rw [hwlen])]
          rw [h3, logicalStream]
          have h4 : dst.length =
              ((s.buf.drop s.pos).take (s.cap - s.pos)).length +
                (dst.length - (s.cap - s.pos)) := by
            rw [hwlen]
            omega
          conv_rhs => rw [h4, List.take_append]
        · simp only [logicalStream]
          rw [← List.drop_take]
          have h5 : (s.inner.take s.buf.length ++
              s.buf.drop (min s.buf.length s.inner.length)).take
                (min s.buf.length s.inner.length) =
              s.inner.take (min s.buf.length s.inner.length) := by
            rw [List.take_append_of_le_length (by simp), List.take_take,
                Nat.min_eq_left (Nat.min_le_left _ _)]
          rw [h5]
          have h6 : s.inner.drop s.buf.length =
              s.inner.drop (min s.buf.length s.inner.length) := by
            rw [drop_min_length]
          rw [h6, take_drop_append_drop _ hnb2]
          have h7 : dst.length =
              ((s.buf.drop s.pos).take (s.cap - s.pos)).length +
                (dst.length - (s.cap - s.pos)) := by
            rw [hwlen]
            omega
          conv_rhs => rw [h7, List.drop_append]
        · refine ⟨?_, ?_⟩
          · show dst.length - (s.cap - s.pos) ≤ min s.buf.length s.inner.length
            omega
          · show min s.buf.length s.inner.length ≤
              (s.inner.take s.buf.length ++
                s.buf.drop (min s.buf.length s.inner.length)).length
            simp
    · rw [if_neg hc2] at h
      split at h
      · exact Option.noConfusion h
      · simp at h
      · rename_i n dst1 inner2 heq
        simp only [Option.some.injEq, Except.ok.injEq, Prod.mk.injEq] at h
        obtain ⟨hd, hs⟩ := h
        subst hd hs
        have hA : writeAt dst 0 ((s.buf.drop s.pos).take (s.cap - s.pos)) =
            (s.buf.drop s.pos).take (s.cap - s.pos) ++ dst.drop (s.cap - s.pos) := by
          rw [writeAt_zero, hwlen]
        have hAlen : (writeAt dst 0 ((s.buf.drop s.pos).take (s.cap - s.pos))).length
            = dst.length := by
          rw [hA, List.length_append, hwlen, List.length_drop]
          omega
        have hDlen : ((writeAt dst 0 ((s.buf.drop s.pos).take (s.cap - s.pos))).drop
            (s.cap - s.pos)).length = dst.length - (s.cap - s.pos) := by
          rw [List.length_drop, hAlen]
        obtain ⟨hge, hn, hdst1, hinner2⟩ :=
          read_at_least_list_inv (by omega) (le_of_eq hDlen.symm) heq
        rw [hDlen] at hn hinner2
        have hn' : n = dst.length - (s.cap - s.pos) := by
          rw [hn]
          omega
        subst hn'
        rw [hDlen, List.drop_eq_nil_of_le (le_of_eq hDlen), List.append_nil] at hdst1
        subst hdst1 hinner2
        refine ⟨?_, ?_, ?_, ?_⟩
        · simp only [logicalStream, List.length_append, hwlen]
          omega
        · have h3 : (writeAt dst 0 ((s.buf.drop s.pos).take (s.cap - s.pos))).take
              (s.cap - s.pos) = (s.buf.drop s.pos).take (s.cap - s.pos) := by
            rw [hA, List.take_append_of_le_length (by rw [hwlen]),
                List.take_of_length_le (by rw [hwlen])]
          rw [h3, logicalStream]
          have h4 : dst.length =
              ((s.buf.drop s.pos).take (s.cap - s.pos)).length +
                (dst.length - (s.cap - s.pos)) := by
            rw [hwlen]
            omega
          conv_rhs => rw [h4, List.take_append]
        · simp only [logicalStream, Nat.sub_self, List.take_zero, List.nil_append]
          have h7 : dst.length =
              ((s.buf.drop s.pos).take (s.cap - s.pos)).length +
                (dst.length - (s.cap - s.pos)) := by
            rw [hwlen]
            omega
          conv_rhs => rw [h7, List.drop_append]
        · exact ⟨Nat.le_refl 0, Nat.zero_le _⟩

/-- Correctness of `skip` on a state satisfying the invariant: a successful
skip advances the logical stream by exactly the requested amount and
preserves the invariant. -/
theorem skip_ok_spec {s s' : BufferedInputStreamWrapper} {bytes : Nat} {f : Nat}
    (hinv : s.inv)
    (h : BufferedInputStreamWrapper.skip (f + 2) s bytes = some (.ok s')) :
    bytes ≤ (logicalStream s).length ∧
      logicalStream s' = (logicalStream s).drop bytes ∧ s'.inv := by
  obtain ⟨hpc, hcl⟩ := hinv
  have hwlen : ((s.buf.drop s.pos).take (s.cap - s.pos)).length = s.cap - s.pos := by
    simp
    omega
  simp only [BufferedInputStreamWrapper.skip] at h
  by_cases hc1 : bytes ≤ s.cap - s.pos
  · rw [if_pos hc1] at h
    simp only [Option.some.injEq, SkipOutcome.ok.injEq] at h
    subst h
    refine ⟨?_, ?_, ?_⟩
    · simp only [logicalStream, List.length_append, hwlen]
      omega
    · simp only [logicalStream]
      rw [List.drop_append_of_le_length (by rw [hwlen]; exact hc1), List.drop_take,
          List.drop_drop, ← Nat.sub_sub]
    · refine ⟨?_, hcl⟩
      show s.pos + bytes ≤ s.cap
      omega
  · rw [if_neg hc1] at h
    by_cases hc2 : bytes - (s.cap - s.pos) ≤ s.buf.length
    · rw [if_pos hc2] at h
      split at h
      · exact Option.noConfusion h
      · simp at h
      · rename_i n buf2 inner2 heq
        simp only [Option.some.injEq, SkipOutcome.ok.injEq] at h
        subst h
        obtain ⟨hge, hn, hbuf2, hinner2⟩ :=
          read_at_least_list_inv (by omega) hc2 heq
        subst hn hbuf2 hinner2
        refine ⟨?_, ?_, ?_⟩
        · simp only [logicalStream, List.length_append, hwlen]
          omega
        · simp only [logicalStream]
          rw [← List.drop_take]
          have h5 : (s.inner.take s.buf.length ++
              s.buf.drop (min s.buf.length s.inner.length)).take
                (min s.buf.length s.inner.length) =
              s.inner.take (min s.buf.length s.inner.length) := by
            rw [List.take_append_of_le_length (by simp), List.take_take,
                Nat.min_eq_left (Nat.min_le_left _ _)]
          rw [h5]
          have h6 : s.inner.drop s.buf.length =
              s.inner.drop (min s.buf.length s.inner.length) := by
            rw [drop_min_length]
          rw [h6, take_drop_append_drop _ (by omega :
              bytes - (s.cap - s.pos) ≤ min s.buf.length s.inner.length)]
          have h7 : bytes =
              ((s.buf.drop s.pos).take (s.cap - s.pos)).length +
                (bytes - (s.cap - s.pos)) := by
            rw [hwlen]
            omega
          conv_rhs => rw [h7, List.drop_append]
        · refine ⟨?_, ?_⟩
          · show bytes - (s.cap - s.pos) ≤ min s.buf.length s.inner.length
            omega
          · show min s.buf.length s.inner.length ≤
              (s.inner.take s.buf.length ++
                s.buf.drop (min s.buf.length s.inner.length)).length
            simp
    · rw [if_neg hc2] at h
      simp at h

/-- Correctness of `get_read_buffer` on a state satisfying the invariant:
a successful call returns the unread window of the successor state, leaves
the logical stream unchanged, and preserves the invariant. -/
theorem get_read_buffer_ok_spec {s s' : BufferedInputStreamWrapper} {w : List Byte}
    {f : Nat} (hinv : s.inv)
    (h : BufferedInputStreamWrapper.get_read_buffer (f + 2) s = some (.ok (w, s'))) :
    w = (s'.buf.drop s'.pos).take (s'.cap - s'.pos) ∧
      logicalStream s' = logicalStream s ∧ s'.inv := by
  obtain ⟨hpc, hcl⟩ := hinv
  simp only [BufferedInputStreamWrapper.get_read_buffer] at h
  by_cases hc : s.cap - s.pos = 0
  · rw [if_pos hc] at h
    split at h
    · exact Option.noConfusion h
    · simp at h
    · rename_i n buf2 inner2 heq
      rcases Nat.eq_zero_or_pos s.buf.length with hL | hL
      · rw [List.length_eq_zero.mp hL, read_at_least_empty_buf] at heq
        exact Option.noConfusion heq
      · simp only [Option.some.injEq, Except.ok.injEq, Prod.mk.injEq] at h
        obtain ⟨hw, hs⟩ := h
        subst hw hs
        obtain ⟨hge, hn, hbuf2, hinner2⟩ :=
          read_at_least_list_inv (by omega) hL heq
        subst hn hbuf2 hinner2
        refine ⟨rfl, ?_, ?_⟩
        · simp only [logicalStream, hc, List.take_zero, List.nil_append,
                     List.drop_zero, Nat.sub_zero]
          have h5 : (s.inner.take s.buf.length ++
              s.buf.drop (min s.buf.length s.inner.length)).take
                (min s.buf.length s.inner.length) =
              s.inner.take (min s.buf.length s.inner.length) := by
            rw [List.take_append_of_le_length (by simp), List.take_take,
                Nat.min_eq_left (Nat.min_le_left _ _)]
          rw [h5]
          have h6 : s.inner.drop s.buf.length =
              s.inner.drop (min s.buf.length s.inner.length) := by
            rw [drop_min_length]
          rw [h6, List.take_append_drop]
        · refine ⟨Nat.zero_le _, ?_⟩
          show min s.buf.length s.inner.length ≤
            (s.inner.take s.buf.length ++
              s.buf.drop (min s.buf.length s.inner.length)).length
          simp
  · rw [if_neg hc] at h
    simp only [Option.some.injEq, Except.ok.injEq, Prod.mk.injEq] at h
    obtain ⟨hw, hs⟩ := h
    subst hw hs
    exact ⟨rfl, rfl, hpc, hcl⟩

/-! Interleaved sequences of `read` and `skip` calls, for the chunking
invariance property. -/

/-- One call on the buffered input stream: a read of `n` bytes (into a
fresh destination of that length) or a skip of `n` bytes. -/
inductive StreamOp where
  | readOp (n : Nat)
  | skipOp (n : Nat)
  deriving DecidableEq

/-- Total number of logical-stream bytes a call sequence consumes. -/
def totalBytes : List StreamOp → Nat
  | [] => 0
  | .readOp n :: ops => n + totalBytes ops
  | .skipOp n :: ops => n + totalBytes ops

/-- The bytes each read call must observe, computed purely from the byte
stream and from the positions the calls cover — independent of any
buffering. -/
def expectedReads : List StreamOp → List Byte → List (List Byte)
  | [], _ => []
  | .readOp n :: ops, stream => stream.take n :: expectedReads ops (stream.drop n)
  | .skipOp n :: ops, stream => expectedReads ops (stream.drop n)

/-- Run a sequence of calls against the wrapper, collecting the bytes
delivered by the reads; the run stops at the first source error, fuel
exhaustion, or unimplemented-skip panic. -/
def runOps (fuel : Nat) : BufferedInputStreamWrapper → List StreamOp →
    Option (Except IoError (List (List Byte) × BufferedInputStreamWrapper))
  | s, [] => some (.ok ([], s))
  | s, .readOp n :: ops =>
    match BufferedInputStreamWrapper.read fuel s (List.replicate n 0) with
    | none => none
    | some (.error e) => some (.error e)
    | some (.ok (bs, s1)) =>
      match runOps fuel s1 ops with
      | none => none
      | some (.error e) => some (.error e)
      | some (.ok (outs, s2)) => some (.ok (bs :: outs, s2))
  | s, .skipOp n :: ops =>
    match BufferedInputStreamWrapper.skip fuel s n with
    | none => none
    | some (.ioError e) => some (.error e)
    | some .unimplementedTodo => none
    | some (.ok s1) => runOps fuel s1 ops

/-- Chunking invariance over any invariant-satisfying start state: a fully
successful interleaved call sequence observes exactly the bytes of the
logical stream at the positions the calls cover, and consumes exactly
`totalBytes ops` of it. -/
theorem runOps_ok_spec {f : Nat} :
    ∀ (ops : List StreamOp) (s s' : BufferedInputStreamWrapper)
      (outs : List (List Byte)), s.inv →
      runOps (f + 2) s ops = some (.ok (outs, s')) →
      outs = expectedReads ops (logicalStream s) ∧
        logicalStream s' = (logicalStream s).drop (totalBytes ops) ∧ s'.inv := by
  intro ops
  induction ops with
  | nil =>
    intro s s' outs hinv h
    simp only [runOps, Option.some.injEq, Except.ok.injEq, Prod.mk.injEq] at h
    obtain ⟨h1, h2⟩ := h
    subst h1 h2
    exact ⟨rfl, by simp [totalBytes], hinv⟩
  | cons op ops ih =>
    cases op with
    | readOp n =>
      intro s s' outs hinv h
      simp only [runOps] at h
      split at h
      · exact Option.noConfusion h
      · simp at h
      · rename_i bs s1 heq1
        obtain ⟨hle, hbs, hstr, hinv1⟩ := read_ok_spec hinv heq1
        rw [List.length_replicate] at hle hbs hstr
        split at h
        · exact Option.noConfusion h
        · simp at h
        · rename_i outs1 s2 heq2
          simp only [Option.some.injEq, Except.ok.injEq, Prod.mk.injEq] at h
          obtain ⟨h1, h2⟩ := h
          subst h1 h2
          obtain ⟨ho, hs, hinv2⟩ := ih s1 s2 outs1 hinv1 heq2
          refine ⟨?_, ?_, hinv2⟩
          · rw [expectedReads, ← hstr, ← ho, hbs]
          · rw [hs, hstr, totalBytes, List.drop_drop]
    | skipOp n =>
      intro s s' outs hinv h
      simp only [runOps] at h
      split at h
      · exact Option.noConfusion h
      · simp at h
      · exact Option.noConfusion h
      · rename_i s1 heq1
        obtain ⟨hle, hstr, hinv1⟩ := skip_ok_spec hinv heq1
        obtain ⟨ho, hs, hinv2⟩ := ih s1 s' outs hinv1 h
        refine ⟨?_, ?_, hinv2⟩
        · rw [expectedReads, ← hstr, ho]
        · rw [hs, hstr, totalBytes, List.drop_drop]

/-! The array-backed input stream (src/io.rs lines 134-165): the state is
the still-visible slice of the caller's array. -/

/-- `Reader::read` for `ArrayInputStream` (src/io.rs lines 144-151): copy
`min dst.length remaining` bytes to the destination's front and shrink the
visible slice by that amount.  It never fails: a read requesting more than
remains is a successful short read (it returns `Ok(n)` with the smaller
count), per the `old_io::Reader` contract.  Returns the delivered bytes
and the shrunk slice. -/
def ArrayInputStream.read (array : List Byte) (dstLen : Nat) :
    Except IoError (List Byte × List Byte) :=
  let n := min dstLen array.length
  .ok (array.take n, array.drop n)

/-- `BufferedInputStream::skip` for `ArrayInputStream` (src/io.rs lines
154-159): asserts `array.len() >= bytes` ("ArrayInputStream ended
prematurely", modelled by `none`), then shrinks the slice. -/
def ArrayInputStream.skip (array : List Byte) (bytes : Nat) : Option (List Byte) :=
  if bytes ≤ array.length then some (array.drop bytes) else none

/-! The buffered output wrapper (src/io.rs lines 172-254).  The wrapped
sink is specialised to an accumulator recording every byte it has been
sent, in order — an always-succeeding `Writer`, so each `try!` in the
source succeeds. -/

structure BufferedOutputStreamWrapper where
  sink : List Byte
  buf : List Byte
  pos : Nat
  deriving DecidableEq

/-- Constructor (src/io.rs lines 179-189): an 8192-byte buffer of
unspecified initial contents (zeros here) and `pos = 0`. -/
def BufferedOutputStreamWrapper.new : BufferedOutputStreamWrapper :=
  { sink := [], buf := List.replicate 8192 0, pos := 0 }

/-- `Writer::write_all` for the wrapper (src/io.rs lines 216-245): copy in
place when the payload fits the remaining capacity; else, when the payload
is at most one buffer's worth, top the buffer up to full, send the whole
buffer to the sink and restart the buffer with the remainder; else send the
pending prefix and then the entire payload straight to the sink. -/
def BufferedOutputStreamWrapper.write_all (s : BufferedOutputStreamWrapper)
    (payload : List Byte) : BufferedOutputStreamWrapper :=
  let available := s.buf.length - s.pos
  let size := payload.length
  if size ≤ available then
    { s with buf := writeAt s.buf s.pos payload, pos := s.pos + size }
  else if size ≤ s.buf.length then
    let buf1 := writeAt s.buf s.pos (payload.take available)
    { sink := s.sink ++ buf1,
      buf := writeAt buf1 0 (payload.drop available),
      pos := size - available }
  else
    { sink := s.sink ++ s.buf.take s.pos ++ payload, buf := s.buf, pos := 0 }

/-- `Writer::flush` for the wrapper (src/io.rs lines 247-253): send the
pending prefix `buf[0 .. pos]` to the sink and reset `pos`; the
accumulator sink's own flush is a no-op. -/
def BufferedOutputStreamWrapper.flush (s : BufferedOutputStreamWrapper) :
    BufferedOutputStreamWrapper :=
  if 0 < s.pos then { s with sink := s.sink ++ s.buf.take s.pos, pos := 0 } else s

/-- A finite sequence of `write_all` calls, in order. -/
def writeAllSeq (s : BufferedOutputStreamWrapper) :
    List (List Byte) → BufferedOutputStreamWrapper
  | [] => s
  | p :: ps => writeAllSeq (s.write_all p) ps

/-! The array-backed output stream (src/io.rs lines 256-281). -/

structure ArrayOutputStream where
  array : List Byte
  fill_pos : Nat
  deriving DecidableEq

/-- `Writer::write_all` for `ArrayOutputStream` (src/io.rs lines 271-280):
asserts that the payload fits the backing array's remaining capacity
("ArrayOutputStream's backing array was not large enough for the data
written.", modelled by `none` — an unconditional assertion, there is no
`fail_fast` field anywhere in this type), then copies the payload at
`fill_pos` and advances it. -/
def ArrayOutputStream.write_all (s : ArrayOutputStream) (payload : List Byte) :
    Option ArrayOutputStream :=
  if payload.length ≤ s.array.length - s.fill_pos then
    some { array := writeAt s.array s.fill_pos payload,
           fill_pos := s.fill_pos + payload.length }
  else none

/-! The typed primitive-list views (src/primitive_list.rs).  The raw
layout-level list views live in `private::layout`, which is not part of
the sources; they are modelled from the spec as a plain element store. -/

/-- Modelled from the spec: `private::layout::ListReader`, the raw list
view the typed read view wraps — a sequence of primitive elements with a
length (the layout module itself is not among the sources). -/
structure ListReader where
  elements : List Nat
  deriving DecidableEq

def ListReader.len (r : ListReader) : Nat := r.elements.length

/-- Modelled from the spec: `private::layout::ListBuilder`, the raw list
view the typed write view wraps. -/
structure ListBuilder where
  elements : List Nat
  deriving DecidableEq

def ListBuilder.len (b : ListBuilder) : Nat := b.elements.length

/-- Modelled from the spec: `PrimitiveElement::get`, the element-size-
specific decode of the element at `index`. -/
def PrimitiveElement.get (r : ListReader) (index : Nat) : Nat :=
  r.elements.getD index 0

/-- Modelled from the spec: `PrimitiveElement::get_from_builder`. -/
def PrimitiveElement.get_from_builder (b : ListBuilder) (index : Nat) : Nat :=
  b.elements.getD index 0

/-- Modelled from the spec: `PrimitiveElement::set`, the element-size-
specific encode of `value` at `index` into the underlying storage. -/
def PrimitiveElement.set (b : ListBuilder) (index value : Nat) : ListBuilder :=
  { elements := b.elements.set index value }

namespace primitive_list

/-- The typed read view (src/primitive_list.rs lines 29-31). -/
structure Reader where
  reader : ListReader
  deriving DecidableEq

def Reader.len (r : Reader) : Nat := r.reader.len

/-- `Reader::get` (src/primitive_list.rs lines 48-51):
`assert!(index < self.len())` — modelled by `none` on failure — before the
element decode. -/
def Reader.get (r : Reader) (index : Nat) : Option Nat :=
  if index < r.len then some (PrimitiveElement.get r.reader index) else none

/-- The typed write view (src/primitive_list.rs lines 54-56). -/
structure Builder where
  builder : ListBuilder
  deriving DecidableEq

def Builder.len (b : Builder) : Nat := b.builder.len

/-- `Builder::set` (src/primitive_list.rs lines 65-67): delegates straight
to `PrimitiveElement::set` — the source performs no bounds check here, so
no failure case exists and the result is always `some`. -/
def Builder.set (b : Builder) (index value : Nat) : Option Builder :=
  some { builder := PrimitiveElement.set b.builder index value }

/-- `Builder::get` (src/primitive_list.rs lines 80-83):
`assert!(index < self.len())` before the element decode. -/
def Builder.get (b : Builder) (index : Nat) : Option Nat :=
  if index < b.len then some (PrimitiveElement.get_from_builder b.builder index) else none

end primitive_list

/-! The message-reader facade (src/message.rs). -/

/-- A wire word (8 bytes); its internal structure is irrelevant here. -/
abbrev Word := Nat

/-- `ReaderOptions` (src/message.rs lines 33-40). -/
structure ReaderOptions where
  traversal_limit_in_words : Nat
  nesting_limit : Int
  fail_fast : Bool
  deriving DecidableEq

/-- `DEFAULT_READER_OPTIONS` (src/message.rs lines 42-44). -/
def DEFAULT_READER_OPTIONS : ReaderOptions :=
  { traversal_limit_in_words := 8 * 1024 * 1024, nesting_limit := 64, fail_fast := true }

/-- `SegmentArrayMessageReader` (src/message.rs lines 94-98), minus the
arena it derives from the same segment list. -/
structure SegmentArrayMessageReader where
  segments : List (List Word)
  options : ReaderOptions
  deriving DecidableEq

/-- `SegmentArrayMessageReader::new` (src/message.rs lines 116-123):
`assert!(segments.len() > 0)` — modelled by `none` on failure — then the
reader is built over the given segments. -/
def SegmentArrayMessageReader.new (segments : List (List Word))
    (options : ReaderOptions) : Option SegmentArrayMessageReader :=
  if segments.length > 0 then some { segments := segments, options := options }
  else none

/-- `MessageReader::get_segment` (src/message.rs lines 102-104): index into
the segment list (`none` models the out-of-bounds panic). -/
def SegmentArrayMessageReader.get_segment (r : SegmentArrayMessageReader)
    (id : Nat) : Option (List Word) :=
  r.segments.get? id

/-! Correctness of the buffered output wrapper: the sink's contents
followed by the pending prefix `buf[0 .. pos]` always equal everything
written so far. -/

theorem write_all_spec (s : BufferedOutputStreamWrapper) (p : List Byte)
    (h : s.pos ≤ s.buf.length) :
    (s.write_all p).sink ++ (s.write_all p).buf.take (s.write_all p).pos
        = s.sink ++ s.buf.take s.pos ++ p ∧
      (s.write_all p).pos ≤ (s.write_all p).buf.length ∧
      (s.write_all p).buf.length = s.buf.length := by
  simp only [BufferedOutputStreamWrapper.write_all]
  by_cases hc1 : p.length ≤ s.buf.length - s.pos
  · rw [if_pos hc1]
    have hlen : (writeAt s.buf s.pos p).length = s.buf.length :=
      writeAt_length h (by omega)
    refine ⟨?_, ?_, hlen⟩
    · show s.sink ++ (writeAt s.buf s.pos p).take (s.pos + p.length) = _
      have e1 : (writeAt s.buf s.pos p).take (s.pos + p.length)
          = s.buf.take s.pos ++ p := by
        rw [writeAt, List.take_append_of_le_length (by simp; omega),
            List.take_of_length_le (by simp)]
      rw [e1, List.append_assoc]
    · show s.pos + p.length ≤ (writeAt s.buf s.pos p).length
      rw [hlen]
      omega
  · rw [if_neg hc1]
    by_cases hc2 : p.length ≤ s.buf.length
    · rw [if_pos hc2]
      have htl : (p.take (s.buf.length - s.pos)).length = s.buf.length - s.pos := by
        simp
        omega
      have hbuf1 : writeAt s.buf s.pos (p.take (s.buf.length - s.pos))
          = s.buf.take s.pos ++ p.take (s.buf.length - s.pos) := by
        rw [writeAt, htl, List.drop_eq_nil_of_le (by omega), List.append_nil]
      have hbuf1len : (writeAt s.buf s.pos (p.take (s.buf.length - s.pos))).length
          = s.buf.length := writeAt_length h (by omega)
      have hdl : (p.drop (s.buf.length - s.pos)).length
          = p.length - (s.buf.length - s.pos) := by
        simp
      have hlen2 : (writeAt (writeAt s.buf s.pos (p.take (s.buf.length - s.pos))) 0
          (p.drop (s.buf.length - s.pos))).length = s.buf.length := by
        rw [writeAt_length (Nat.zero_le _) (by rw [hdl, hbuf1len]; omega), hbuf1len]
      refine ⟨?_, ?_, hlen2⟩
      · show (s.sink ++ writeAt s.buf s.pos (p.take (s.buf.length - s.pos))) ++
            (writeAt (writeAt s.buf s.pos (p.take (s.buf.length - s.pos))) 0
              (p.drop (s.buf.length - s.pos))).take (p.length - (s.buf.length - s.pos))
            = _
        have e2 : (writeAt (writeAt s.buf s.pos (p.take (s.buf.length - s.pos))) 0
            (p.drop (s.buf.length - s.pos))).take (p.length - (s.buf.length - s.pos))
            = p.drop (s.buf.length - s.pos) := by
          rw [writeAt_zero,
              List.take_append_of_le_length (by rw [hdl]),
              List.take_of_length_le (by rw [hdl])]
        rw [e2, hbuf1]
        simp only [List.append_assoc, List.take_append_drop]
      · show p.length - (s.buf.length - s.pos) ≤ _
        rw [hlen2]
        omega
    · rw [if_neg hc2]
      refine ⟨?_, Nat.zero_le _, rfl⟩
      show (s.sink ++ s.buf.take s.pos ++ p) ++ List.take 0 s.buf = _
      simp

theorem writeAllSeq_spec :
    ∀ (ps : List (List Byte)) (s : BufferedOutputStreamWrapper),
      s.pos ≤ s.buf.length →
      (writeAllSeq s ps).sink ++
          (writeAllSeq s ps).buf.take (writeAllSeq s ps).pos
        = s.sink ++ s.buf.take s.pos ++ ps.flatten ∧
      (writeAllSeq s ps).pos ≤ (writeAllSeq s ps).buf.length := by
  intro ps
  induction ps with
  | nil =>
    intro s h
    exact ⟨by simp [writeAllSeq], h⟩
  | cons p ps ih =>
    intro s h
    obtain ⟨h1, h2, h3⟩ := write_all_spec s p h
    obtain ⟨ih1, ih2⟩ := ih (s.write_all p) h2
    simp only [writeAllSeq]
    refine ⟨?_, ih2⟩
    rw [ih1, h1, List.flatten_cons, ← List.append_assoc]

/-- Auxiliary: `minBytes ≤ n` for any successful run of the
`read_at_least` loop, whatever the wrapped reader: the loop only exits
successfully once its accumulated count has reached the minimum. -/
theorem read_at_least_loop_min {σ ε : Type} (rd : σ → Nat → Except ε (List Byte × σ)) :
    ∀ (fuel : Nat) (s : σ) (buf : List Byte) (pos minB n : Nat)
      (buf' : List Byte) (s' : σ),
      read_at_least_loop rd fuel s buf pos minB = some (.ok (n, buf', s')) →
      minB ≤ n := by
  intro fuel
  induction fuel with
  | zero =>
    intro s buf pos minB n buf' s' h
    exact Option.noConfusion h
  | succ f ih =>
    intro s buf pos minB n buf' s' h
    unfold read_at_least_loop at h
    by_cases hc : pos < minB
    · rw [if_pos hc] at h
      split at h
      · simp at h
      · exact ih _ _ _ _ _ _ _ h
    · rw [if_neg hc] at h
      simp only [Option.some.injEq, Except.ok.injEq, Prod.mk.injEq] at h
      omega

end Capnp

deriving instance DecidableEq for Except

namespace Capnp

/-! The claims. -/

/-- C1: for every `BufferedInputStreamWrapper` state with
`pos ≤ cap ≤ buffer length` and every destination slice, a successful
`read` returns exactly the destination's length worth of bytes — the next
bytes of the logical stream (buffered window followed by the wrapped
source) — and never a successful partial read; the only other outcomes are
a propagated error or a run that never returns. -/
theorem claim1_read_exact_or_error (f : Nat) {s s' : BufferedInputStreamWrapper}
    {dst dst' : List Byte}
    (hinv : s.pos ≤ s.cap ∧ s.cap ≤ s.buf.length)
    (h : BufferedInputStreamWrapper.read (f + 2) s dst = some (.ok (dst', s'))) :
    dst'.length = dst.length ∧
      dst' = (logicalStream s).take dst.length ∧
      logicalStream s' = (logicalStream s).drop dst.length := by
  obtain ⟨hle, hb, hs, _⟩ := read_ok_spec hinv h
  refine ⟨?_, hb, hs⟩
  rw [hb, List.length_take]
  omega

/-- C1 witness: a concrete large-read-branch run. -/
theorem claim1_read_exact_or_error_witness :
    ((⟨[1, 2], [], 0, 0⟩ : BufferedInputStreamWrapper).pos ≤ (0 : Nat) ∧
        (0 : Nat) ≤ ([] : List Byte).length) ∧
      BufferedInputStreamWrapper.read 2 ⟨[1, 2], [], 0, 0⟩ [9] =
        some (.ok ([1], ⟨[2], [], 0, 0⟩)) ∧
      (([1] : List Byte).length = ([9] : List Byte).length ∧
        [1] = (logicalStream ⟨[1, 2], [], 0, 0⟩).take ([9] : List Byte).length ∧
        logicalStream ⟨[2], [], 0, 0⟩ =
          (logicalStream ⟨[1, 2], [], 0, 0⟩).drop ([9] : List Byte).length) :=
  ⟨by decide, by decide, claim1_read_exact_or_error 0 (by decide) (by decide)⟩

/-- C2: chunking invariance — for every invariant-satisfying wrapper state
and every finite interleaved sequence of `read`/`skip` calls that all
succeed, the bytes the read calls deliver are exactly the bytes of the
logical stream at the positions the calls cover (`expectedReads`, computed
from the stream alone, with no reference to buffering or call
granularity), and the calls together consume exactly `totalBytes ops`
bytes; for a freshly constructed wrapper the logical stream is the
underlying byte source itself. -/
theorem claim2_chunking_invariance (f : Nat) (ops : List StreamOp)
    {s s' : BufferedInputStreamWrapper} {outs : List (List Byte)}
    (hinv : s.pos ≤ s.cap ∧ s.cap ≤ s.buf.length)
    (h : runOps (f + 2) s ops = some (.ok (outs, s'))) :
    (outs = expectedReads ops (logicalStream s) ∧
      logicalStream s' = (logicalStream s).drop (totalBytes ops)) ∧
    ∀ src : List Byte, logicalStream (BufferedInputStreamWrapper.new src) = src := by
  obtain ⟨ho, hs, _⟩ := runOps_ok_spec ops s s' outs hinv h
  refine ⟨⟨ho, hs⟩, fun src => ?_⟩
  simp only [logicalStream, BufferedInputStreamWrapper.new, Nat.sub_self,
             List.take_zero, List.nil_append]

/-- C2 witness: three interleaved calls over a four-byte source with a
four-byte buffer. -/
theorem claim2_chunking_invariance_witness :
    ((⟨[5, 6, 7, 8], [0, 0, 0, 0], 0, 0⟩ : BufferedInputStreamWrapper).pos ≤ (0 : Nat) ∧
        (0 : Nat) ≤ ([0, 0, 0, 0] : List Byte).length) ∧
      runOps 2 ⟨[5, 6, 7, 8], [0, 0, 0, 0], 0, 0⟩ [.readOp 1, .skipOp 1, .readOp 1] =
        some (.ok ([[5], [7]], ⟨[], [5, 6, 7, 8], 3, 4⟩)) ∧
      (([[5], [7]] = expectedReads [.readOp 1, .skipOp 1, .readOp 1]
          (logicalStream ⟨[5, 6, 7, 8], [0, 0, 0, 0], 0, 0⟩) ∧
        logicalStream ⟨[], [5, 6, 7, 8], 3, 4⟩ =
          (logicalStream ⟨[5, 6, 7, 8], [0, 0, 0, 0], 0, 0⟩).drop
            (totalBytes [.readOp 1, .skipOp 1, .readOp 1])) ∧
       ∀ src : List Byte, logicalStream (BufferedInputStreamWrapper.new src) = src) :=
  ⟨by decide, by decide,
   claim2_chunking_invariance 0 [.readOp 1, .skipOp 1, .readOp 1] (by decide) (by decide)⟩

/-- C3: `read_at_least` returns `Ok(n)` only with `n ≥ min_bytes`, for
every wrapped reader, every buffer and every fuel bound; and against the
list source, when the source is exhausted before `min_bytes` bytes have
accumulated (fewer than `min_bytes` bytes remain) it reports the
end-of-data error rather than returning a short count. -/
theorem claim3_read_at_least_min {σ ε : Type}
    (rd : σ → Nat → Except ε (List Byte × σ)) :
    (∀ (fuel : Nat) (s : σ) (buf : List Byte) (minB n : Nat)
       (buf' : List Byte) (s' : σ),
       read_at_least rd fuel s buf minB = some (.ok (n, buf', s')) → minB ≤ n) ∧
    (∀ (f : Nat) (rem buf : List Byte) (minB : Nat),
       0 < minB → minB ≤ buf.length → rem.length < minB →
       read_at_least listRead (f + 2) rem buf minB = some (.error .endOfFile)) := by
  refine ⟨?_, ?_⟩
  · intro fuel s buf minB n buf' s' h
    exact read_at_least_loop_min rd fuel s buf 0 minB n buf' s' h
  · intro f rem buf minB h0 hb hr
    exact read_at_least_list_err f h0 hb hr

/-- C3 witness: a two-byte minimum met by a greedy read, and a two-byte
minimum that exhausts a one-byte source. -/
theorem claim3_read_at_least_min_witness :
    (read_at_least listRead 2 ([1, 2, 3] : List Byte) [0, 0] 2 =
        some (.ok (2, [1, 2], [3])) ∧ (2 : Nat) ≤ 2) ∧
    ((0 : Nat) < 2 ∧ (2 : Nat) ≤ ([0, 0] : List Byte).length ∧
        ([1] : List Byte).length < 2 ∧
      read_at_least listRead 2 ([1] : List Byte) [0, 0] 2 =
        some (.error .endOfFile)) :=
  ⟨⟨by decide,
    (claim3_read_at_least_min listRead).1 2 [1, 2, 3] [0, 0] 2 2 [1, 2] [3] (by decide)⟩,
   ⟨by decide, by decide, by decide,
    (claim3_read_at_least_min listRead).2 0 [1] [0, 0] 2 (by decide) (by decide) (by decide)⟩⟩

/-- C4: a finite sequence of successful `write_all` calls on a fresh
`BufferedOutputStreamWrapper` followed by `flush` hands the wrapped sink
exactly the concatenation of the written payloads, in order — buffering
never reorders, drops or duplicates bytes — and leaves nothing pending. -/
theorem claim4_buffered_output_delivers (ps : List (List Byte)) :
    ((writeAllSeq BufferedOutputStreamWrapper.new ps).flush).sink = ps.flatten ∧
      ((writeAllSeq BufferedOutputStreamWrapper.new ps).flush).pos = 0 := by
  obtain ⟨h1, h2⟩ := writeAllSeq_spec ps BufferedOutputStreamWrapper.new
    (Nat.zero_le _)
  have h1' : (writeAllSeq BufferedOutputStreamWrapper.new ps).sink ++
      (writeAllSeq BufferedOutputStreamWrapper.new ps).buf.take
        (writeAllSeq BufferedOutputStreamWrapper.new ps).pos = ps.flatten := by
    rw [h1]
    simp only [BufferedOutputStreamWrapper.new, List.take_zero, List.nil_append]
  simp only [BufferedOutputStreamWrapper.flush]
  by_cases hp : 0 < (writeAllSeq BufferedOutputStreamWrapper.new ps).pos
  · rw [if_pos hp]
    exact ⟨h1', rfl⟩
  · rw [if_neg hp]
    have hz : (writeAllSeq BufferedOutputStreamWrapper.new ps).pos = 0 := by omega
    rw [hz, List.take_zero, List.append_nil] at h1'
    exact ⟨h1', hz⟩

/-- C5: on the streaming wrapper, a skip whose excess over the buffered
window is larger than one buffer's capacity lands in the
`panic!("TODO")` branch — it fails loudly, never mis-skips or reports
success. -/
theorem claim5_large_skip_unimplemented (f : Nat) (s : BufferedInputStreamWrapper)
    (bytes : Nat) (h1 : s.cap - s.pos < bytes)
    (h2 : s.buf.length < bytes - (s.cap - s.pos)) :
    BufferedInputStreamWrapper.skip f s bytes = some .unimplementedTodo := by
  simp only [BufferedInputStreamWrapper.skip]
  rw [if_neg (by omega), if_neg (by omega)]

/-- C5 witness: skipping 3 bytes against a 2-byte buffer with an empty
window. -/
theorem claim5_large_skip_unimplemented_witness :
    ((⟨[9, 9, 9, 9], [0, 0], 0, 0⟩ : BufferedInputStreamWrapper).cap - 0 < 3) ∧
      (([0, 0] : List Byte).length < 3 - (0 : Nat)) ∧
      BufferedInputStreamWrapper.skip 5 ⟨[9, 9, 9, 9], [0, 0], 0, 0⟩ 3 =
        some .unimplementedTodo :=
  ⟨by decide, by decide,
   claim5_large_skip_unimplemented 5 ⟨[9, 9, 9, 9], [0, 0], 0, 0⟩ 3 (by decide) (by decide)⟩

/-- C6: writing exactly the backing array's remaining capacity into an
`ArrayOutputStream` succeeds and advances `fill_pos` by that length
(filling the array); writing one byte more fails the assertion,
deterministically — the type carries no `fail_fast` field for the outcome
to depend on. -/
theorem claim6_array_output_boundary (s : ArrayOutputStream) (p q : List Byte)
    (h : s.fill_pos ≤ s.array.length)
    (hp : p.length = s.array.length - s.fill_pos)
    (hq : q.length = s.array.length - s.fill_pos + 1) :
    (ArrayOutputStream.write_all s p =
        some { array := writeAt s.array s.fill_pos p,
               fill_pos := s.fill_pos + p.length } ∧
      s.fill_pos + p.length = s.array.length) ∧
    ArrayOutputStream.write_all s q = none := by
  refine ⟨⟨?_, by omega⟩, ?_⟩
  · simp only [ArrayOutputStream.write_all]
    rw [if_pos (by omega)]
  · simp only [ArrayOutputStream.write_all]
    rw [if_neg (by omega)]

/-- C6 witness: a three-byte array filled to position 1; a two-byte write
fits exactly, a three-byte write fails. -/
theorem claim6_array_output_boundary_witness :
    ((1 : Nat) ≤ 3 ∧ ([7, 7] : List Byte).length = 3 - 1 ∧
        ([8, 8, 8] : List Byte).length = 3 - 1 + 1) ∧
      (ArrayOutputStream.write_all ⟨[0, 0, 0], 1⟩ [7, 7] = some ⟨[0, 7, 7], 3⟩ ∧
        (1 : Nat) + ([7, 7] : List Byte).length = 3) ∧
      ArrayOutputStream.write_all ⟨[0, 0, 0], 1⟩ [8, 8, 8] = none := by
  have h := claim6_array_output_boundary ⟨[0, 0, 0], 1⟩ [7, 7] [8, 8, 8]
    (by decide) (by decide) (by decide)
  exact ⟨by decide, ⟨by rw [h.1.1]; decide, h.1.2⟩, h.2⟩

/-- C7 counterexample: an `ArrayInputStream` holding 2 bytes, read with a
3-byte destination, returns a SUCCESSFUL short read — `Ok` with only the 2
remaining bytes — not a failure; this refutes the part of the claim that a
`read` requesting more bytes than remain is a failure. -/
theorem claim7_array_read_counterexample :
    ArrayInputStream.read [1, 2] 3 = .ok ([1, 2], []) := by decide

/-- C7 amended: `read` shrinks the visible slice by the number of bytes
consumed and never reads past the end — a read requesting more than
remains is a successful short read delivering `min dstLen remaining`
bytes; `skip` requesting more than remains fails (its assertion), and an
in-range `skip` shrinks the slice. -/
theorem claim7_array_input_amended (array : List Byte) (dstLen bytes : Nat) :
    (ArrayInputStream.read array dstLen =
        .ok (array.take (min dstLen array.length),
             array.drop (min dstLen array.length))) ∧
    (bytes ≤ array.length →
        ArrayInputStream.skip array bytes = some (array.drop bytes)) ∧
    (array.length < bytes → ArrayInputStream.skip array bytes = none) := by
  refine ⟨rfl, ?_, ?_⟩
  · intro hb
    simp only [ArrayInputStream.skip]
    rw [if_pos hb]
  · intro hb
    simp only [ArrayInputStream.skip]
    rw [if_neg (by omega)]

/-- C7 witness: in-range and past-the-end skips on a two-byte slice. -/
theorem claim7_array_input_amended_witness :
    (([1, 2] : List Byte).length < 3 ∧ ArrayInputStream.skip [1, 2] 3 = none) ∧
      ((1 : Nat) ≤ ([1, 2] : List Byte).length ∧
        ArrayInputStream.skip [1, 2] 1 = some [2]) :=
  ⟨⟨by decide, (claim7_array_input_amended [1, 2] 0 3).2.2 (by decide)⟩,
   ⟨by decide, (claim7_array_input_amended [1, 2] 0 1).2.1 (by decide)⟩⟩

/-- C8 counterexample: `Builder::set` at index 5 of a 2-element list view
returns successfully — there is no bounds check in `set`, so an
out-of-range index does not fail; this refutes the claim that `set`
checks `index < length` before encoding. -/
theorem claim8_set_unchecked_counterexample :
    primitive_list.Builder.set ⟨⟨[0, 0]⟩⟩ 5 7 ≠ none ∧
      primitive_list.Builder.set ⟨⟨[0, 0]⟩⟩ 5 7 = some ⟨⟨[0, 0]⟩⟩ := by decide

/-- C8 amended: `Reader::get` and `Builder::get` bounds-check
`index < length` before any element decode (an out-of-range index fails
and never reaches the codec), but `Builder::set` performs no bounds check
and encodes unconditionally through the element codec. -/
theorem claim8_bounds_checks_amended (r : primitive_list.Reader)
    (b : primitive_list.Builder) (index value : Nat) :
    (r.len ≤ index → primitive_list.Reader.get r index = none) ∧
    (index < r.len →
        primitive_list.Reader.get r index = some (PrimitiveElement.get r.reader index)) ∧
    (b.len ≤ index → primitive_list.Builder.get b index = none) ∧
    (index < b.len →
        primitive_list.Builder.get b index =
          some (PrimitiveElement.get_from_builder b.builder index)) ∧
    primitive_list.Builder.set b index value =
      some ⟨PrimitiveElement.set b.builder index value⟩ := by
  refine ⟨?_, ?_, ?_, ?_, rfl⟩
  · intro hb
    simp only [primitive_list.Reader.get]
    rw [if_neg (by omega)]
  · intro hb
    simp only [primitive_list.Reader.get]
    rw [if_pos hb]
  · intro hb
    simp only [primitive_list.Builder.get]
    rw [if_neg (by omega)]
  · intro hb
    simp only [primitive_list.Builder.get]
    rw [if_pos hb]

/-- C8 witness: in-range and out-of-range accesses on one-element views. -/
theorem claim8_bounds_checks_amended_witness :
    ((⟨⟨[4]⟩⟩ : primitive_list.Reader).len ≤ 1 ∧
        primitive_list.Reader.get ⟨⟨[4]⟩⟩ 1 = none) ∧
      ((0 : Nat) < (⟨⟨[4]⟩⟩ : primitive_list.Reader).len ∧
        primitive_list.Reader.get ⟨⟨[4]⟩⟩ 0 = some 4) ∧
      ((⟨⟨[4]⟩⟩ : primitive_list.Builder).len ≤ 1 ∧
        primitive_list.Builder.get ⟨⟨[4]⟩⟩ 1 = none) ∧
      primitive_list.Builder.set ⟨⟨[4]⟩⟩ 0 9 = some ⟨⟨[9]⟩⟩ :=
  ⟨⟨by decide, (claim8_bounds_checks_amended ⟨⟨[4]⟩⟩ ⟨⟨[4]⟩⟩ 1 0).1 (by decide)⟩,
   ⟨by decide, by
      rw [(claim8_bounds_checks_amended ⟨⟨[4]⟩⟩ ⟨⟨[4]⟩⟩ 0 0).2.1 (by decide)]
      decide⟩,
   ⟨by decide, (claim8_bounds_checks_amended ⟨⟨[4]⟩⟩ ⟨⟨[4]⟩⟩ 1 0).2.2.1 (by decide)⟩,
   by
     rw [(claim8_bounds_checks_amended ⟨⟨[4]⟩⟩ ⟨⟨[4]⟩⟩ 0 9).2.2.2.2]
     decide⟩

/-- C9: the invariant `0 ≤ pos ≤ cap ≤ capacity` is preserved by every
successful `read`, `skip` and `get_read_buffer` on the buffered input
wrapper, and the output wrapper's fill position never exceeds its buffer's
capacity across `write_all` and `flush`. -/
theorem claim9_invariant_preservation (f : Nat) :
    (∀ (s s' : BufferedInputStreamWrapper) (dst dst' : List Byte),
       s.pos ≤ s.cap ∧ s.cap ≤ s.buf.length →
       BufferedInputStreamWrapper.read (f + 2) s dst = some (.ok (dst', s')) →
       s'.pos ≤ s'.cap ∧ s'.cap ≤ s'.buf.length) ∧
    (∀ (s s' : BufferedInputStreamWrapper) (bytes : Nat),
       s.pos ≤ s.cap ∧ s.cap ≤ s.buf.length →
       BufferedInputStreamWrapper.skip (f + 2) s bytes = some (.ok s') →
       s'.pos ≤ s'.cap ∧ s'.cap ≤ s'.buf.length) ∧
    (∀ (s s' : BufferedInputStreamWrapper) (w : List Byte),
       s.pos ≤ s.cap ∧ s.cap ≤ s.buf.length →
       BufferedInputStreamWrapper.get_read_buffer (f + 2) s = some (.ok (w, s')) →
       s'.pos ≤ s'.cap ∧ s'.cap ≤ s'.buf.length) ∧
    (∀ (t : BufferedOutputStreamWrapper) (p : List Byte),
       t.pos ≤ t.buf.length → (t.write_all p).pos ≤ (t.write_all p).buf.length) ∧
    (∀ t : BufferedOutputStreamWrapper,
       t.pos ≤ t.buf.length → t.flush.pos ≤ t.flush.buf.length) := by
  refine ⟨?_, ?_, ?_, ?_, ?_⟩
  · intro s s' dst dst' hinv h
    exact (read_ok_spec hinv h).2.2.2
  · intro s s' bytes hinv h
    exact (skip_ok_spec hinv h).2.2
  · intro s s' w hinv h
    exact (get_read_buffer_ok_spec hinv h).2.2
  · intro t p h
    exact (write_all_spec t p h).2.1
  · intro t h
    simp only [BufferedOutputStreamWrapper.flush]
    split
    · exact Nat.zero_le _
    · exact h

/-- C9 witness: a refilling skip on a concrete state. -/
theorem claim9_invariant_preservation_witness :
    ((⟨[1, 2], [0, 0], 0, 0⟩ : BufferedInputStreamWrapper).pos ≤ (0 : Nat) ∧
        (0 : Nat) ≤ ([0, 0] : List Byte).length) ∧
      BufferedInputStreamWrapper.skip 2 ⟨[1, 2], [0, 0], 0, 0⟩ 1 =
        some (.ok ⟨[], [1, 2], 1, 2⟩) ∧
      ((1 : Nat) ≤ 2 ∧ (2 : Nat) ≤ ([1, 2] : List Byte).length) :=
  ⟨by decide, by decide,
   (claim9_invariant_preservation 0).2.1 ⟨[1, 2], [0, 0], 0, 0⟩ ⟨[], [1, 2], 1, 2⟩ 1
     (by decide) (by decide)⟩

/-- C10: constructing a `SegmentArrayMessageReader` over an empty segment
list fails the constructor's assertion, and every successfully constructed
reader has at least one segment, so the root lookup at segment 0 always
has a segment to address. -/
theorem claim10_nonempty_segments (options : ReaderOptions) :
    SegmentArrayMessageReader.new [] options = none ∧
    ∀ (segments : List (List Word)) (r : SegmentArrayMessageReader),
      SegmentArrayMessageReader.new segments options = some r →
      0 < r.segments.length ∧ (r.get_segment 0).isSome = true := by
  constructor
  · simp [SegmentArrayMessageReader.new]
  · intro segments r h
    simp only [SegmentArrayMessageReader.new] at h
    by_cases hc : segments.length > 0
    · rw [if_pos hc] at h
      simp only [Option.some.injEq] at h
      subst h
      refine ⟨hc, ?_⟩
      simp only [SegmentArrayMessageReader.get_segment]
      rw [List.get?_eq_getElem?, Option.isSome_iff_exists]
      exact ⟨segments[0], (List.getElem?_eq_some).mpr ⟨hc, rfl⟩⟩
    · rw [if_neg hc] at h
      exact Option.noConfusion h

/-- C10 witness: a one-segment reader under default options. -/
theorem claim10_nonempty_segments_witness :
    SegmentArrayMessageReader.new [[0]] DEFAULT_READER_OPTIONS =
        some ⟨[[0]], DEFAULT_READER_OPTIONS⟩ ∧
      0 < (⟨[[0]], DEFAULT_READER_OPTIONS⟩ : SegmentArrayMessageReader).segments.length ∧
      ((⟨[[0]], DEFAULT_READER_OPTIONS⟩ : SegmentArrayMessageReader).get_segment 0).isSome
        = true :=
  ⟨by decide,
   (claim10_nonempty_segments DEFAULT_READER_OPTIONS).2 [[0]] _ (by decide)⟩

end Capnp
